import Mathlib

/-!
Verification of the gh-client repository (package github) against its
natural-language specification.

The development shallowly embeds the algorithmic core of src/github.go:

* the per-attempt closure logic shared by every getter and lister,
  together with handleRateLimitError and isRateLimitError;
* the retry executor RetryExponentialBackoff (whose source lives in the
  external utilz dependency and is therefore modelled from the spec);
* the page-aggregation loops (ListReposByUser, ListCommits, GetPull);
* the exhaustive-search loop ListAllReposByLanguage and its legacy variant
  ListReposOnlyBylanguage, run against a canonical windowed search remote;
* the tree walker WalkFiles / walkFiles;
* the contribution classifier isShadowMember / isDirectCommit.

Machine integers are modelled as Int (star counts, durations) and Nat
(status codes, cursors); fallible operations return sum types or Except.
-/

/-! ## Contribution classifier (src/github.go lines 897 to 921) -/

/-- Commit record as used by the classifier: author login and committer
login, each possibly absent (a nil user in Go, whose GetLogin yields the
empty string). -/
structure CommitRecord where
  author : Option String
  committer : Option String
deriving DecidableEq, Repr

/-- GetLogin on a possibly-nil user: the empty string when absent. -/
def getLogin (u : Option String) : String :=
  u.getD ("")

/-- Translation of isDirectCommit: author login equals committer login. -/
def isDirectCommit (c : CommitRecord) : Bool :=
  getLogin c.author == getLogin c.committer

/-- Translation of isMergedByCommitterCommit: committer login equals the
web-flow merge-bot identity. -/
def isMergedByCommitterCommit (c : CommitRecord) : Bool :=
  getLogin c.committer == "web-flow"

/-- Translation of isModeratedPRCommit: author login differs from
committer login. -/
def isModeratedPRCommit (c : CommitRecord) : Bool :=
  !(getLogin c.author == getLogin c.committer)

/-- Translation of isShadowMember: scan the commit list and report true at
the first direct commit. -/
def isShadowMember : List CommitRecord → Bool
  | [] => false
  | c :: rest => if isDirectCommit c then true else isShadowMember rest

theorem isShadowMember_eq_true_iff (cs : List CommitRecord) :
    isShadowMember cs = true ↔ ∃ c ∈ cs, isDirectCommit c = true := by
  induction cs with
  | nil => simp [isShadowMember]
  | cons c rest ih =>
    by_cases h : isDirectCommit c = true
    · simp [isShadowMember, h]
    · simp only [isShadowMember, if_neg h, ih]
      constructor
      · rintro ⟨d, hd, hdir⟩
        exact ⟨d, List.mem_cons_of_mem _ hd, hdir⟩
      · rintro ⟨d, hd, hdir⟩
        rcases List.mem_cons.mp hd with rfl | hd
        · exact absurd hdir h
        · exact ⟨d, hd, hdir⟩

/-- C4 counterexample: a single commit whose committer login is the
merge-bot identity web-flow and whose author login equals it is classified
direct, so it alone makes the contributor a shadow member, contradicting
the claim that commits whose committer is the merge-bot identity never, on
their own, make the contributor shadow. -/
theorem shadow_of_webflow_selfcommit :
    isMergedByCommitterCommit ⟨some ("web-flow"), some ("web-flow")⟩ = true ∧
    isShadowMember [⟨some ("web-flow"), some ("web-flow")⟩] = true := by
  decide

/-- C4 (amended): a contributor is shadow iff at least one commit is
direct (author login equals committer login), and a commit list in which
every author login differs from its committer login never yields shadow;
a merge-bot-committed commit only qualifies when its author login also
equals the merge-bot login, that is when it is itself direct. -/
theorem isShadowMember_direct_characterization (cs : List CommitRecord) :
    (isShadowMember cs = true ↔ ∃ c ∈ cs, isDirectCommit c = true) ∧
    ((∀ c ∈ cs, getLogin c.author ≠ getLogin c.committer) →
      isShadowMember cs = false) := by
  refine ⟨isShadowMember_eq_true_iff cs, fun hmod => ?_⟩
  by_contra h
  have h1 : isShadowMember cs = true := by
    cases hsm : isShadowMember cs
    · exact absurd hsm h
    · rfl
  obtain ⟨c, hc, hdir⟩ := (isShadowMember_eq_true_iff cs).mp h1
  exact hmod c hc (by simpa [isDirectCommit] using hdir)

/-- C4 witness: a contributor with a single moderated commit (author X,
committer Y) is not classified shadow. -/
theorem isShadowMember_direct_characterization_witness :
    isShadowMember [⟨some ("X"), some ("Y")⟩] = false :=
  (isShadowMember_direct_characterization [⟨some ("X"), some ("Y")⟩]).2
    (by decide)

/-- C10: a commit with both logins absent reads as author login equal to
committer login (both empty strings), hence is direct, and any commit list
containing such a commit classifies the contributor as shadow member. -/
theorem shadow_of_absent_logins :
    isDirectCommit ⟨none, none⟩ = true ∧
    ∀ (cs : List CommitRecord) (c : CommitRecord), c ∈ cs →
      c.author = none → c.committer = none → isShadowMember cs = true := by
  refine ⟨by decide, fun cs c hc ha hcm => ?_⟩
  refine (isShadowMember_eq_true_iff cs).mpr ⟨c, hc, ?_⟩
  cases c
  simp only at ha hcm
  subst ha; subst hcm
  decide

/-- C10 witness: a contributor whose only commit has no author and no
committer metadata is classified shadow. -/
theorem shadow_of_absent_logins_witness :
    isShadowMember [⟨none, none⟩] = true :=
  (shadow_of_absent_logins).2 [⟨none, none⟩] ⟨none, none⟩
    (List.mem_singleton.mpr rfl) rfl rfl

/-! ## Request executor: per-attempt closure and retry policy
(src/github.go lines 55 to 135 and the identical closures elsewhere) -/

/-- Error returned by the underlying go-github API call: either a
RateLimitError or any other transport or API error. -/
inductive ApiErr where
  | rateLimit
  | transport
deriving DecidableEq, Repr

/-- Error produced by one attempt closure: the wrapping of an API error by
fmt.Errorf, or a bad-status error from the status-code check. -/
inductive CallErr where
  | wrapped (e : ApiErr)
  | badStatus (code : Nat)
deriving DecidableEq, Repr

/-- Outcome of one underlying API call, as observed by the closure: the
returned error (if any), the response status code, the returned items, the
next-page cursor, and the duration until the rate-limit reset (the value
of resp.Rate.Reset.Sub(time.Now())). -/
structure AttemptOutcome (α : Type) where
  err : Option ApiErr
  status : Nat
  items : List α
  next : Nat
  resetIn : Int
deriving DecidableEq, Repr

/-- Translation of isRateLimitError: the type assertion against
RateLimitError, false on a nil error. -/
def isRateLimitError (err : Option ApiErr) : Bool :=
  match err with
  | some ApiErr.rateLimit => true
  | _ => false

/-- Translation of handleRateLimitError: when the error is a rate-limit
error, sleep until the reported reset and report true; otherwise report
false. The second component records the sleeps performed. -/
def handleRateLimitError (err : Option ApiErr) (resetIn : Int) :
    Bool × List Int :=
  if isRateLimitError err then (true, [resetIn]) else (false, [])

/-- Translation of the retry closure shared by every getter and lister in
src/github.go: on a non-nil call error the closure returns the wrapped
error at once (the early return at, for example, lines 100 to 102), so the
subsequent handleRateLimitError call at line 104 always receives a nil
error; then the status-code check accepts 200, 404 and 204. The second
component records the sleeps the closure performs. -/
def attemptClosure {α : Type} (a : AttemptOutcome α) :
    Option CallErr × List Int :=
  match a.err with
  | some e => (some (CallErr.wrapped e), [])
  | none =>
    let handled := handleRateLimitError none a.resetIn
    if handled.1 then (none, handled.2)
    else if a.status ≠ 200 ∧ a.status ≠ 404 ∧ a.status ≠ 204 then
      (some (CallErr.badStatus a.status), handled.2)
    else (none, handled.2)

/-- Result of running the retry executor: the collected errors (empty on
eventual success), the outcome of the last attempt performed, every sleep
performed (closure sleeps and backoff sleeps), and the number of attempts
made. -/
structure RetryResult (α : Type) where
  errs : List CallErr
  last : Option (AttemptOutcome α)
  sleeps : List Int
  attemptsMade : Nat
deriving DecidableEq, Repr

/-- Modelled from the spec: RetryExponentialBackoff lives in the external
utilz dependency and is not under src/, so it is modelled from section 4.1
of the spec: a bounded number of attempts, exponential backoff between
attempts starting at the base delay and doubling each retry, errors
collected per failed attempt, and an aggregated error list only when every
attempt failed (the error list is empty on eventual success). The list
argument supplies the outcome of each successive attempt. -/
def retryGo {α : Type} : Nat → Int → List (AttemptOutcome α) →
    List CallErr → List Int → Nat → Option (AttemptOutcome α) →
    RetryResult α
  | 0, _, _, errs, sl, made, last => ⟨errs, last, sl, made⟩
  | _ + 1, _, [], errs, sl, made, last => ⟨errs, last, sl, made⟩
  | n + 1, delay, a :: rest, errs, sl, made, _ =>
    let res := attemptClosure a
    match res.1 with
    | none => ⟨[], some a, sl ++ res.2, made + 1⟩
    | some e =>
      if n = 0 then ⟨errs ++ [e], some a, sl ++ res.2, made + 1⟩
      else retryGo n (2 * delay) rest (errs ++ [e])
        (sl ++ res.2 ++ [delay]) (made + 1) (some a)

/-- Modelled from the spec: entry point of the retry executor with attempt
budget n and base backoff delay. -/
def RetryExponentialBackoff {α : Type} (n : Nat) (base : Int)
    (outs : List (AttemptOutcome α)) : RetryResult α :=
  retryGo n base outs [] [] 0 none

/-- Rate-limited attempt used as the failing input: the API call returns a
RateLimitError and the response reports a reset 7 time units in the
future. -/
def rlAttempt : AttemptOutcome String :=
  ⟨some ApiErr.rateLimit, 403, [], 0, 7⟩

/-- Successful attempt with status 200. -/
def okAttempt : AttemptOutcome String :=
  ⟨none, 200, [], 0, 0⟩

/-- C1: the rate-limit handling of the executor is dead code. A rate-limited
attempt makes the closure return the wrapped error through the early
return, before handleRateLimitError can observe it, so no closure ever
sleeps until the reset time (second conjunct), the rate-limited failing
input produces an ordinary wrapped error with no sleep (first conjunct),
two rate-limited failures exhaust an attempt budget of two exactly like
transient failures (third conjunct), and under a budget of five the
scenario fail-fail-success succeeds after three attempts having slept only
the exponential backoff delays one and two, never the reported reset
duration seven (remaining conjuncts). -/
theorem rateLimit_handling_dead_code :
    attemptClosure rlAttempt = (some (CallErr.wrapped ApiErr.rateLimit), []) ∧
    (∀ (a : AttemptOutcome String), (attemptClosure a).2 = []) ∧
    (RetryExponentialBackoff 2 1 [rlAttempt, rlAttempt, okAttempt]).errs =
      [CallErr.wrapped ApiErr.rateLimit, CallErr.wrapped ApiErr.rateLimit] ∧
    (RetryExponentialBackoff 5 1 [rlAttempt, rlAttempt, okAttempt]).attemptsMade = 3 ∧
    (RetryExponentialBackoff 5 1 [rlAttempt, rlAttempt, okAttempt]).sleeps = [1, 2] ∧
    (RetryExponentialBackoff 5 1 [rlAttempt, rlAttempt, okAttempt]).errs = [] := by
  refine ⟨by decide, fun a => ?_, by decide, by decide, by decide, by decide⟩
  cases a with
  | mk err status items next resetIn =>
    cases err with
    | none =>
      have hr : handleRateLimitError none resetIn = (false, []) := rfl
      simp only [attemptClosure, hr]
      split
      · rfl
      · split <;> rfl
    | some e => simp [attemptClosure]

/-! ## Page aggregation (src/github.go lines 81 to 135, 214 to 257, 790
to 860) -/

/-- Terminal error of a lister or getter: the aggregated generic failure
built from the collected retry errors, the ErrNotFound sentinel, or the
artificial out-of-fetches marker used when the model runs out of supplied
fetch outcomes (the Go loop would simply issue another request). -/
inductive ListErr where
  | generic
  | notFound
  | outOfFetches
deriving DecidableEq, Repr

/-- Translation of the page loop of ListReposByUser (identical in
ListReposByOrg, ListPulls, ListOrgsOfUser, ListContributors and
ListOfficialMembers): each iteration runs the retry executor on the next
supplied fetch, returns the aggregated generic error when the retries were
exhausted, returns ErrNotFound when the final response status is 404,
otherwise appends the page items and continues while the next-page cursor
is non-zero. -/
def listReposByUserGo {α : Type} (acc : List α) :
    List (List (AttemptOutcome α)) → Except ListErr (List α)
  | [] => Except.error ListErr.outOfFetches
  | f :: rest =>
    let r := RetryExponentialBackoff 5 1 f
    if r.errs ≠ [] then Except.error ListErr.generic
    else
      match r.last with
      | none => Except.error ListErr.outOfFetches
      | some a =>
        if a.status = 404 then Except.error ListErr.notFound
        else
          if a.next = 0 then Except.ok (acc ++ a.items)
          else listReposByUserGo (acc ++ a.items) rest

/-- Entry point of the embedded ListReposByUser. -/
def ListReposByUser {α : Type} (fetches : List (List (AttemptOutcome α))) :
    Except ListErr (List α) :=
  listReposByUserGo [] fetches

/-- Translation of GetPull: runs the retry executor once; on exhaustion it
first checks whether the final response status is 404 and returns
ErrNotFound in that case (the scenario its TODO comment says the other
getters lack), otherwise the aggregated generic error; on success a 404
status maps to ErrNotFound and anything else returns the payload. -/
def GetPull {α : Type} (f : List (AttemptOutcome α)) :
    Except ListErr (List α) :=
  let r := RetryExponentialBackoff 5 1 f
  if r.errs ≠ [] then
    match r.last with
    | some a =>
      if a.status = 404 then Except.error ListErr.notFound
      else Except.error ListErr.generic
    | none => Except.error ListErr.generic
  else
    match r.last with
    | none => Except.error ListErr.outOfFetches
    | some a =>
      if a.status = 404 then Except.error ListErr.notFound
      else Except.ok a.items

/-- Clean single-attempt fetch sequence for a list of pages: every fetch
succeeds on its first attempt with status 200, every page but the last
reports a non-zero next cursor, and the last page reports cursor zero. -/
def mkFetches {α : Type} : List (List α) → List (List (AttemptOutcome α))
  | [] => []
  | [items] => [[⟨none, 200, items, 0, 0⟩]]
  | items :: rest => [⟨none, 200, items, 1, 0⟩] :: mkFetches rest

theorem listReposByUserGo_clean {α : Type} :
    ∀ (pages : List (List α)) (acc : List α), pages ≠ [] →
      listReposByUserGo acc (mkFetches pages) = Except.ok (acc ++ pages.flatten)
  | [], _, h => absurd rfl h
  | [items], acc, _ => by
    show Except.ok (acc ++ items) = Except.ok (acc ++ [items].flatten)
    simp
  | items :: next :: rest, acc, _ => by
    show listReposByUserGo (acc ++ items) (mkFetches (next :: rest)) =
      Except.ok (acc ++ (items :: next :: rest).flatten)
    rw [listReposByUserGo_clean (next :: rest) (acc ++ items) (by simp)]
    simp

/-- C8: for a paginated endpoint answering with P clean pages (P at least
one, each fetch succeeding with status 200, non-zero cursors linking the
pages and a zero cursor on the last), the aggregation loop of
ListReposByUser returns exactly the concatenation of the page items in
pagination order. -/
theorem ListReposByUser_pagination {α : Type} (pages : List (List α))
    (h : pages ≠ []) :
    ListReposByUser (mkFetches pages) = Except.ok pages.flatten := by
  have := listReposByUserGo_clean pages [] h
  simpa [ListReposByUser] using this

/-- C8 witness: two pages of one item each aggregate to the two items in
order. -/
theorem ListReposByUser_pagination_witness :
    ListReposByUser (mkFetches [[("x")], [("y")]]) =
      Except.ok [("x"), ("y")] :=
  ListReposByUser_pagination [[("x")], [("y")]] (by decide)

/-- Fetch whose five attempts all fail with a transport error while the
response carries status 404: the retry budget is exhausted and the final
response status is 404-equivalent. -/
def badFetch404 : List (AttemptOutcome String) :=
  List.replicate 5 ⟨some ApiErr.transport, 404, [], 0, 0⟩

/-- C9: when the retry budget is exhausted and the final response status
is 404, GetPull returns the ErrNotFound sentinel but ListReposByUser (like
every other getter and lister) returns the aggregated generic failure, so
the sentinel mapping after exhaustion exists only in GetPull. -/
theorem notFound_after_exhaustion_only_in_GetPull :
    ListReposByUser [badFetch404] = Except.error ListErr.generic ∧
    GetPull badFetch404 = Except.error ListErr.notFound ∧
    ListErr.generic ≠ ListErr.notFound :=
  ⟨rfl, rfl, by decide⟩

/-- Commit item as seen by the pagination loop of ListCommits: the author
timestamp of the commit, as an instant on an integer timeline. -/
structure CommitItem where
  date : Int
deriving DecidableEq, Repr

/-- Translation of the inner item loop of ListCommits when maxAge is
positive: walk the page in order, appending each commit that is not too
old and stopping the whole pagination (second component true) at the first
commit whose age now minus date exceeds maxAge. -/
def takeUntilOld (now maxAge : Int) :
    List CommitItem → List CommitItem → List CommitItem × Bool
  | [], acc => (acc, false)
  | c :: rest, acc =>
    if maxAge < now - c.date then (acc, true)
    else takeUntilOld now maxAge rest (acc ++ [c])

/-- Translation of the page loop of ListCommits: like ListReposByUser, but
when maxAge is positive each page is filtered by the early-stop item loop,
and a stop signal terminates the pagination immediately returning the
accepted prefix; when maxAge is zero or negative every page is appended
whole. -/
def listCommitsGo (now maxAge : Int) (acc : List CommitItem) :
    List (List (AttemptOutcome CommitItem)) → Except ListErr (List CommitItem)
  | [] => Except.error ListErr.outOfFetches
  | f :: rest =>
    let r := RetryExponentialBackoff 5 1 f
    if r.errs ≠ [] then Except.error ListErr.generic
    else
      match r.last with
      | none => Except.error ListErr.outOfFetches
      | some a =>
        if a.status = 404 then Except.error ListErr.notFound
        else
          if 0 < maxAge then
            match takeUntilOld now maxAge a.items acc with
            | (acc2, true) => Except.ok acc2
            | (acc2, false) =>
              if a.next = 0 then Except.ok acc2
              else listCommitsGo now maxAge acc2 rest
          else
            if a.next = 0 then Except.ok (acc ++ a.items)
            else listCommitsGo now maxAge (acc ++ a.items) rest

/-- Entry point of the embedded ListCommits. -/
def ListCommits (now maxAge : Int)
    (fetches : List (List (AttemptOutcome CommitItem))) :
    Except ListErr (List CommitItem) :=
  listCommitsGo now maxAge [] fetches

/-- Acceptance predicate of the early-stop loop: the commit is not older
than maxAge. -/
def freshEnough (now maxAge : Int) (c : CommitItem) : Bool :=
  !decide (maxAge < now - c.date)

theorem takeUntilOld_spec (now maxAge : Int) :
    ∀ (items acc : List CommitItem),
      takeUntilOld now maxAge items acc =
        (acc ++ items.takeWhile (freshEnough now maxAge),
         items.any (fun c => decide (maxAge < now - c.date)))
  | [], acc => by simp [takeUntilOld]
  | c :: rest, acc => by
    by_cases h : maxAge < now - c.date
    · simp [takeUntilOld, h, List.takeWhile_cons, freshEnough]
    · rw [takeUntilOld, if_neg h, takeUntilOld_spec now maxAge rest (acc ++ [c])]
      simp [List.takeWhile_cons, freshEnough, h]

theorem takeWhile_append_of_any {α : Type} (p : α → Bool) :
    ∀ (l₁ l₂ : List α), l₁.any (fun c => !p c) = true →
      (l₁ ++ l₂).takeWhile p = l₁.takeWhile p
  | [], _, h => by simp at h
  | a :: rest, l₂, h => by
    by_cases hp : p a
    · have hrest : rest.any (fun c => !p c) = true := by
        simpa [hp] using h
      simp [List.takeWhile_cons, hp, takeWhile_append_of_any p rest l₂ hrest]
    · simp [List.takeWhile_cons, hp]

theorem takeWhile_append_of_all {α : Type} (p : α → Bool) :
    ∀ (l₁ l₂ : List α), l₁.all p = true →
      (l₁ ++ l₂).takeWhile p = l₁ ++ l₂.takeWhile p
  | [], _, _ => by simp
  | a :: rest, l₂, h => by
    have hp : p a = true := by simpa using (List.all_eq_true.mp h a (by simp))
    have hrest : rest.all p = true :=
      List.all_eq_true.mpr fun x hx => List.all_eq_true.mp h x (by simp [hx])
    simp [List.takeWhile_cons, hp, takeWhile_append_of_all p rest l₂ hrest]

theorem takeWhile_of_all {α : Type} (p : α → Bool) (l : List α)
    (h : l.all p = true) : l.takeWhile p = l := by
  have := takeWhile_append_of_all p l [] h
  simpa using this

theorem listCommitsGo_clean_pos (now maxAge : Int) (hpos : 0 < maxAge) :
    ∀ (pages : List (List CommitItem)) (acc : List CommitItem), pages ≠ [] →
      listCommitsGo now maxAge acc (mkFetches pages) =
        Except.ok (acc ++ pages.flatten.takeWhile (freshEnough now maxAge))
  | [], _, h => absurd rfl h
  | [items], acc, _ => by
    show (if 0 < maxAge then _ else _) = _
    rw [if_pos hpos, takeUntilOld_spec now maxAge items acc]
    by_cases hany : items.any (fun c => decide (maxAge < now - c.date)) = true
    · simp only [hany]
      simp
    · have hfalse : items.any (fun c => decide (maxAge < now - c.date)) = false :=
        Bool.eq_false_iff.mpr hany
      simp only [hfalse]
      simp
  | items :: next :: rest, acc, _ => by
    show (if 0 < maxAge then _ else _) = _
    rw [if_pos hpos, takeUntilOld_spec now maxAge items acc]
    by_cases hany : items.any (fun c => decide (maxAge < now - c.date)) = true
    · simp only [hany]
      have heq : ((items :: next :: rest).flatten).takeWhile
          (freshEnough now maxAge) = items.takeWhile (freshEnough now maxAge) := by
        have : items.any (fun c => !(freshEnough now maxAge c)) = true := by
          simpa [freshEnough] using hany
        simpa using takeWhile_append_of_any (freshEnough now maxAge) items
          (next :: rest).flatten this
      rw [List.flatten_cons] at heq ⊢
      rw [heq]
    · have hfalse : items.any (fun c => decide (maxAge < now - c.date)) = false :=
        Bool.eq_false_iff.mpr hany
      simp only [hfalse]
      have hall : items.all (freshEnough now maxAge) = true := by
        rw [List.all_eq_true]
        intro x hx
        have := (List.any_eq_false).mp hfalse x hx
        simpa [freshEnough] using this
      show listCommitsGo now maxAge _ (mkFetches (next :: rest)) = _
      rw [listCommitsGo_clean_pos now maxAge hpos (next :: rest)
        (acc ++ items.takeWhile (freshEnough now maxAge)) (by simp)]
      have hfl : ((items :: next :: rest).flatten : List CommitItem) =
          items ++ (next :: rest).flatten := rfl
      rw [hfl,
        takeWhile_append_of_all (freshEnough now maxAge) items
          (next :: rest).flatten hall,
        takeWhile_of_all (freshEnough now maxAge) items hall]
      simp
  termination_by pages => pages.length

theorem listCommitsGo_clean_nonpos (now maxAge : Int) (hnp : ¬0 < maxAge) :
    ∀ (pages : List (List CommitItem)) (acc : List CommitItem), pages ≠ [] →
      listCommitsGo now maxAge acc (mkFetches pages) =
        Except.ok (acc ++ pages.flatten)
  | [], _, h => absurd rfl h
  | [items], acc, _ => by
    show (if 0 < maxAge then _ else _) = _
    rw [if_neg hnp]
    simp
  | items :: next :: rest, acc, _ => by
    show (if 0 < maxAge then _ else _) = _
    rw [if_neg hnp]
    show listCommitsGo now maxAge (acc ++ items) (mkFetches (next :: rest)) = _
    rw [listCommitsGo_clean_nonpos now maxAge hnp (next :: rest)
      (acc ++ items) (by simp)]
    simp
  termination_by pages => pages.length

/-- C5: over clean pages, with a positive maxAge the commit listing
returns exactly the accepted prefix of the concatenated pages, cut at the
first commit older than maxAge (discarding it, the rest of its page and
all later pages); with maxAge zero or negative the listing returns every
commit of every page. -/
theorem ListCommits_early_stop (now maxAge : Int)
    (pages : List (List CommitItem)) (h : pages ≠ []) :
    (0 < maxAge →
      ListCommits now maxAge (mkFetches pages) =
        Except.ok (pages.flatten.takeWhile (freshEnough now maxAge))) ∧
    (maxAge ≤ 0 →
      ListCommits now maxAge (mkFetches pages) = Except.ok pages.flatten) := by
  constructor
  · intro hpos
    have := listCommitsGo_clean_pos now maxAge hpos pages [] h
    simpa [ListCommits] using this
  · intro hnp
    have := listCommitsGo_clean_nonpos now maxAge (by omega) pages [] h
    simpa [ListCommits] using this

/-- C5 witness: with now equal to 10 and maxAge 3, the pages
[[8, 1], [0]] (dates) yield exactly the accepted prefix [8]; the commit
dated 1 is older than 3 time units, so it, the rest of its page and the
whole second page are discarded. -/
theorem ListCommits_early_stop_witness :
    ListCommits 10 3 (mkFetches [[⟨8⟩, ⟨1⟩], [⟨0⟩]]) =
      Except.ok [⟨8⟩] :=
  (ListCommits_early_stop 10 3 [[⟨8⟩, ⟨1⟩], [⟨0⟩]] (by decide)).1 (by decide)

/-! ## Tree walker (src/github.go lines 584 to 643) -/

/-- Node of a remote content tree: a plain file or a directory together
with the children its listing returns, in listing order. -/
inductive CNode where
  | file : String → CNode
  | dir : String → List CNode → CNode
deriving Repr

/-- Translation of the recursive walkFiles helper: iterate the listed
content in order; a directory first has its children listed (a listing
failure is returned at once) and recursively walked (a failure unwinds),
and only then is the visitor invoked on the directory node itself; a file
node is visited immediately. The first component is the log of visitor
invocations, the second the error that aborted the walk, if any. The
listing of a directory named n fails with error e when lf n = some e, and
the visitor fails on a node named n when vis n = some e. -/
def walkFiles (lf vis : String → Option String) :
    List CNode → List String × Option String
  | [] => ([], none)
  | CNode.file name :: rest =>
    match vis name with
    | some e => ([name], some e)
    | none =>
      let r := walkFiles lf vis rest
      (name :: r.1, r.2)
  | CNode.dir name children :: rest =>
    match lf name with
    | some e => ([], some e)
    | none =>
      match walkFiles lf vis children with
      | (log, some e) => (log, some e)
      | (log, none) =>
        match vis name with
        | some e => (log ++ [name], some e)
        | none =>
          let r := walkFiles lf vis rest
          (log ++ name :: r.1, r.2)

/-- Outcome of the WalkFiles entry point: either a Go panic raised on a
failed root listing, or a normal return carrying the visit log and the
returned error, if any. -/
inductive WalkOutcome where
  | panicked (e : String)
  | returned (log : List String) (err : Option String)
deriving DecidableEq, Repr

/-- Translation of the WalkFiles entry point: list the start path (on
failure the code panics rather than returning), then walk the listed
children. -/
def WalkFiles (lf vis : String → Option String) (rootPath : String)
    (rootChildren : List CNode) : WalkOutcome :=
  match lf rootPath with
  | some e => WalkOutcome.panicked e
  | none =>
    let r := walkFiles lf vis rootChildren
    WalkOutcome.returned r.1 r.2

/-- Visitor and listing function that never fail. -/
def noFail : String → Option String := fun _ => none

/-- Expected visit order stated by the spec: files in listing order, each
directory after its recursively completed subtree. -/
def visitOrder : List CNode → List String
  | [] => []
  | CNode.file name :: rest => name :: visitOrder rest
  | CNode.dir name children :: rest =>
    visitOrder children ++ name :: visitOrder rest

theorem walkFiles_noFail : ∀ (content : List CNode),
    walkFiles noFail noFail content = (visitOrder content, none)
  | [] => by simp [walkFiles, visitOrder]
  | CNode.file name :: rest => by
    have ih := walkFiles_noFail rest
    simp [walkFiles, visitOrder, noFail, ih]
  | CNode.dir name children :: rest => by
    have ih1 := walkFiles_noFail children
    have ih2 := walkFiles_noFail rest
    simp [walkFiles, visitOrder, noFail, ih1, ih2]

/-- C6: with no failures the walk visits every node, files immediately in
listing order and each directory only after its recursively completed
subtree (first conjunct, against the recursively defined expected order);
in particular, for the tree root containing a.txt and the directory sub
containing b.txt, listed with sub first, the visitor call order is
b.txt, sub, a.txt (second conjunct). -/
theorem walkFiles_postorder :
    (∀ (content : List CNode),
      walkFiles noFail noFail content = (visitOrder content, none)) ∧
    WalkFiles noFail noFail ("root")
      [CNode.dir ("sub") [CNode.file ("b.txt")], CNode.file ("a.txt")] =
      WalkOutcome.returned [("b.txt"), ("sub"), ("a.txt")] none := by
  refine ⟨walkFiles_noFail, ?_⟩
  simp [WalkFiles, walkFiles, noFail]

/-- Listing function that fails on the root path only. -/
def lfRootFails : String → Option String :=
  fun n => if n = ("root") then some ("listing failed") else none

/-- C7 counterexample: a failure of the initial root-path listing makes
WalkFiles panic (terminating the process) instead of returning the failure
as an error to the caller, contradicting the claim for the root node. -/
theorem WalkFiles_root_failure_panics :
    WalkFiles lfRootFails noFail ("root") [CNode.file ("a.txt")] =
      WalkOutcome.panicked ("listing failed") := by
  simp [WalkFiles, lfRootFails]

/-- C7 (amended): a listing failure below the root propagates as an error:
a directory child whose listing fails makes the walk return that failure
immediately, visiting nothing of that subtree or of the remaining siblings
(second conjunct), and an error produced inside a subtree walk propagates
unchanged past the remaining siblings and ancestors (third conjunct,
supplying the induction step for failures at arbitrary depth); a failure
of the initial root listing, however, panics instead of being returned
(first conjunct). -/
theorem walkFiles_listing_failure_propagation
    (lf vis : String → Option String) (rootPath : String)
    (rootChildren : List CNode) (e : String) :
    (lf rootPath = some e →
      WalkFiles lf vis rootPath rootChildren = WalkOutcome.panicked e) ∧
    (∀ (name : String) (children rest : List CNode), lf name = some e →
      walkFiles lf vis (CNode.dir name children :: rest) = ([], some e)) ∧
    (∀ (name : String) (children rest : List CNode) (log : List String),
      lf name = none → walkFiles lf vis children = (log, some e) →
      walkFiles lf vis (CNode.dir name children :: rest) = (log, some e)) := by
  refine ⟨fun h => ?_, fun name children rest h => ?_,
    fun name children rest log hnone hsub => ?_⟩
  · simp [WalkFiles, h]
  · simp [walkFiles, h]
  · simp [walkFiles, hnone, hsub]

/-- C7 witness: instantiation of the propagation theorem at a listing
function failing only on the directory sub, showing the failure of the
inner listing is returned through walkFiles with nothing visited. -/
theorem walkFiles_listing_failure_propagation_witness :
    walkFiles (fun n => if n = ("sub") then some ("listing failed") else none)
      noFail [CNode.dir ("sub") [CNode.file ("b.txt")], CNode.file ("a.txt")] =
      ([], some ("listing failed")) :=
  (walkFiles_listing_failure_propagation
    (fun n => if n = ("sub") then some ("listing failed") else none)
    noFail ("root") [] ("listing failed")).2.1 ("sub")
    [CNode.file ("b.txt")] [CNode.file ("a.txt")] (by simp)

/-! ## Exhaustive search engine (src/github.go lines 1045 to 1184 and the
legacy variant at src/unnamed/part_000 lines 887 to 1019) -/

/-- Repository item as seen by the search loop: the unique full name and
the stargazer count. -/
structure RepoItem where
  fullName : String
  stars : Int
deriving DecidableEq, Repr

/-- Canonical result window of the remote search endpoint for a dataset D:
the dataset (already ordered by descending stars, the sort the query
requests), restricted to stars at most the bound when the star bound is in
use, and capped at the 1000-item window. -/
def searchWindow (D : List RepoItem) (useB : Bool) (bound : Int) :
    List RepoItem :=
  (if useB then D.filter (fun it => it.stars ≤ bound) else D).take 1000

/-- Page index actually served for a requested page number: page 0 (the
unset Go value) is served as page 1. -/
def pageIdx (p : Nat) : Nat := max p 1

/-- Canonical remote search endpoint: 100-item pages of the current
window, with the next-page cursor pointing one past the served page while
the window extends further, and zero otherwise. -/
def canonicalRemote (D : List RepoItem) (useB : Bool) (bound : Int)
    (p : Nat) : List RepoItem × Nat :=
  let w := searchWindow D useB bound
  ((w.drop ((pageIdx p - 1) * 100)).take 100,
   if pageIdx p * 100 < w.length then pageIdx p + 1 else 0)

/-- Mutable state of the per-page item loop: latestStarCount, the
storeIndex of seen full names, and the accumulated repositories. -/
structure ProcState where
  latest : Int
  seen : List String
  acc : List RepoItem
deriving DecidableEq, Repr

/-- Translation of the per-item loop of ListAllReposByLanguage: a star
count below MinStars breaks out of the whole getter loop returning the
accumulated list; an already-seen full name is skipped; otherwise the item
is accepted, latestStarCount and the store index are updated, and a
positive Limit that has been reached breaks out returning the accumulated
list. -/
def processItems (minStars : Int) (limit : Nat) :
    List RepoItem → ProcState → ProcState ⊕ List RepoItem
  | [], ps => Sum.inl ps
  | it :: rest, ps =>
    if it.stars < minStars then Sum.inr ps.acc
    else if ps.seen.contains it.fullName then processItems minStars limit rest ps
    else
      let ps2 : ProcState := ⟨it.stars, ps.seen ++ [it.fullName], ps.acc ++ [it]⟩
      if 0 < limit ∧ limit ≤ ps2.acc.length then Sum.inr ps2.acc
      else processItems minStars limit rest ps2

/-- Loop state of ListAllReposByLanguage between iterations: the requested
page, the useStarBound flag, starLowerBound, latestStarCount, the seen
index and the accumulated repositories. -/
structure SearchState where
  page : Nat
  useStarBound : Bool
  starLowerBound : Int
  latestStarCount : Int
  seen : List String
  acc : List RepoItem
deriving DecidableEq, Repr

/-- Initial state of ListAllReposByLanguage: page unset, no star bound,
starLowerBound initialized to the minus-one sentinel. -/
def initSearchState : SearchState := ⟨0, false, -1, 0, [], []⟩

/-- Translation of one iteration of the GetterLoop of
ListAllReposByLanguage against the canonical remote: fetch the page for
the current state, run the item loop (whose breaks end the whole loop),
then either follow a non-zero next cursor, or, at cursor zero, stop when
starLowerBound is zero and otherwise restart at page 1 with the star bound
set to latestStarCount, decremented by one first when it equals the
previous bound. -/
def ListAllReposByLanguageStep (D : List RepoItem) (minStars : Int)
    (limit : Nat) (s : SearchState) : SearchState ⊕ List RepoItem :=
  let pr := canonicalRemote D s.useStarBound s.starLowerBound s.page
  match processItems minStars limit pr.1 ⟨s.latestStarCount, s.seen, s.acc⟩ with
  | Sum.inr result => Sum.inr result
  | Sum.inl ps =>
    if pr.2 = 0 then
      if s.starLowerBound = 0 then Sum.inr ps.acc
      else
        let latest2 := if s.starLowerBound = ps.latest then ps.latest - 1 else ps.latest
        Sum.inl ⟨1, true, latest2, latest2, ps.seen, ps.acc⟩
    else Sum.inl ⟨pr.2, s.useStarBound, s.starLowerBound, ps.latest, ps.seen, ps.acc⟩

/-- Fuel-indexed execution of the GetterLoop: none when the fuel ran out
before the loop ended. -/
def ListAllReposByLanguageRun (D : List RepoItem) (minStars : Int)
    (limit : Nat) : Nat → SearchState → Option (List RepoItem)
  | 0, _ => none
  | n + 1, s =>
    match ListAllReposByLanguageStep D minStars limit s with
    | Sum.inr r => some r
    | Sum.inl s2 => ListAllReposByLanguageRun D minStars limit n s2

/-- Iterated step function, exposing the intermediate loop states. -/
def ListAllReposByLanguageSteps (D : List RepoItem) (minStars : Int)
    (limit : Nat) : Nat → SearchState → SearchState ⊕ List RepoItem
  | 0, s => Sum.inl s
  | n + 1, s =>
    match ListAllReposByLanguageStep D minStars limit s with
    | Sum.inr r => Sum.inr r
    | Sum.inl s2 => ListAllReposByLanguageSteps D minStars limit n s2

/-- Translation of one iteration of the legacy ListReposOnlyBylanguage
loop from src/unnamed/part_000: identical to ListAllReposByLanguageStep
except that the cursor-zero branch has no starLowerBound-equals-zero stop,
so it always restarts with the (possibly decremented) bound. -/
def ListReposOnlyBylanguageStep (D : List RepoItem) (minStars : Int)
    (limit : Nat) (s : SearchState) : SearchState ⊕ List RepoItem :=
  let pr := canonicalRemote D s.useStarBound s.starLowerBound s.page
  match processItems minStars limit pr.1 ⟨s.latestStarCount, s.seen, s.acc⟩ with
  | Sum.inr result => Sum.inr result
  | Sum.inl ps =>
    if pr.2 = 0 then
      let latest2 := if s.starLowerBound = ps.latest then ps.latest - 1 else ps.latest
      Sum.inl ⟨1, true, latest2, latest2, ps.seen, ps.acc⟩
    else Sum.inl ⟨pr.2, s.useStarBound, s.starLowerBound, ps.latest, ps.seen, ps.acc⟩

/-- Fuel-indexed execution of the legacy loop. -/
def ListReposOnlyBylanguageRun (D : List RepoItem) (minStars : Int)
    (limit : Nat) : Nat → SearchState → Option (List RepoItem)
  | 0, _ => none
  | n + 1, s =>
    match ListReposOnlyBylanguageStep D minStars limit s with
    | Sum.inr r => some r
    | Sum.inl s2 => ListReposOnlyBylanguageRun D minStars limit n s2

/-- Initial state of the legacy loop: its starLowerBound is declared
without the minus-one sentinel and starts at the Go zero value. -/
def legacyInit : SearchState := ⟨0, false, 0, 0, [], []⟩

/-- Dataset of a single repository with two stars, used for the concrete
search traces. -/
def dOne : List RepoItem := [⟨("a/b"), 2⟩]

/-- C2 counterexample: on the single-repository dataset the loop reaches,
after two iterations, the live state with star bound 1 whose restart page
from the remote is empty with next cursor zero; the loop nevertheless does
not end there (after three iterations it is still live, now with bound 0)
and only ends on the fourth iteration, when starLowerBound has reached 0.
An empty restart page therefore does not end the bound-decrement loop,
contradicting the claimed termination condition. -/
theorem emptyRestartPage_does_not_end_loop :
    ListAllReposByLanguageSteps dOne 0 0 2 initSearchState =
      Sum.inl ⟨1, true, 1, 1, [("a/b")], [⟨("a/b"), 2⟩]⟩ ∧
    canonicalRemote dOne true 1 1 = ([], 0) ∧
    ListAllReposByLanguageSteps dOne 0 0 3 initSearchState =
      Sum.inl ⟨1, true, 0, 0, [("a/b")], [⟨("a/b"), 2⟩]⟩ ∧
    ListAllReposByLanguageRun dOne 0 0 3 initSearchState = none ∧
    ListAllReposByLanguageRun dOne 0 0 4 initSearchState =
      some [⟨("a/b"), 2⟩] := by
  refine ⟨by decide, by decide, by decide, by decide, by decide⟩

theorem legacy_step_stuck (s : SearchState) (hb : s.useStarBound = true)
    (hneg : s.starLowerBound < 0)
    (hlat : s.latestStarCount = s.starLowerBound) :
    ListReposOnlyBylanguageStep dOne 0 0 s =
      Sum.inl ⟨1, true, s.starLowerBound - 1, s.starLowerBound - 1,
        s.seen, s.acc⟩ := by
  have hfil : dOne.filter (fun it => it.stars ≤ s.starLowerBound) = [] := by
    simp only [dOne, List.filter]
    have : ¬((2 : Int) ≤ s.starLowerBound) := by omega
    simp [this]
  simp [ListReposOnlyBylanguageStep, canonicalRemote, searchWindow, hb,
    hfil, processItems, hlat]

theorem legacy_run_stuck : ∀ (n : Nat) (s : SearchState),
    s.useStarBound = true → s.starLowerBound < 0 →
    s.latestStarCount = s.starLowerBound →
    ListReposOnlyBylanguageRun dOne 0 0 n s = none
  | 0, _, _, _, _ => rfl
  | n + 1, s, hb, hneg, hlat => by
    show (match ListReposOnlyBylanguageStep dOne 0 0 s with
      | Sum.inr r => some r
      | Sum.inl s2 => ListReposOnlyBylanguageRun dOne 0 0 n s2) = none
    rw [legacy_step_stuck s hb hneg hlat]
    exact legacy_run_stuck n
      ⟨1, true, s.starLowerBound - 1, s.starLowerBound - 1, s.seen, s.acc⟩
      rfl (show s.starLowerBound - 1 < 0 by omega) rfl

/-- Supporting result for C2: the legacy ListReposOnlyBylanguage loop,
which lacks the starLowerBound-equals-zero stop, never terminates on the
single-repository dataset with MinStars 0 and no Limit: after exhausting
the data it decrements the bound below zero forever, receiving empty
restart pages at every step. -/
theorem ListReposOnlyBylanguage_no_termination :
    ∀ (n : Nat), ListReposOnlyBylanguageRun dOne 0 0 n legacyInit = none := by
  intro n
  match n with
  | 0 => rfl
  | 1 => rfl
  | 2 => rfl
  | 3 => rfl
  | k + 4 =>
    have heq : ListReposOnlyBylanguageRun dOne 0 0 (k + 4) legacyInit =
        ListReposOnlyBylanguageRun dOne 0 0 k
          ⟨1, true, -1, -1, [("a/b")], [⟨("a/b"), 2⟩]⟩ := rfl
    rw [heq]
    exact legacy_run_stuck k
      ⟨1, true, -1, -1, [("a/b")], [⟨("a/b"), 2⟩]⟩ rfl (by decide) rfl

theorem processItems_latest (minStars : Int) (limit : Nat) :
    ∀ (items : List RepoItem) (ps ps2 : ProcState),
      processItems minStars limit items ps = Sum.inl ps2 →
      (ps2.latest = ps.latest ∧ ps2.seen = ps.seen ∧ ps2.acc = ps.acc) ∨
      ∃ it ∈ items, ps2.latest = it.stars
  | [], ps, ps2, h => by
    simp only [processItems, Sum.inl.injEq] at h
    exact Or.inl (by rw [← h]; exact ⟨rfl, rfl, rfl⟩)
  | it :: rest, ps, ps2, h => by
    rw [processItems] at h
    by_cases h1 : it.stars < minStars
    · rw [if_pos h1] at h; simp at h
    · rw [if_neg h1] at h
      by_cases h2 : ps.seen.contains it.fullName
      · rw [if_pos h2] at h
        rcases processItems_latest minStars limit rest ps ps2 h with hL | ⟨j, hj, hjs⟩
        · exact Or.inl hL
        · exact Or.inr ⟨j, List.mem_cons_of_mem _ hj, hjs⟩
      · rw [if_neg h2] at h
        simp only at h
        by_cases h3 : 0 < limit ∧ limit ≤ (ps.acc ++ [it]).length
        · rw [if_pos h3] at h; simp at h
        · rw [if_neg h3] at h
          rcases processItems_latest minStars limit rest
            ⟨it.stars, ps.seen ++ [it.fullName], ps.acc ++ [it]⟩ ps2 h with
            hL | ⟨j, hj, hjs⟩
          · exact Or.inr ⟨it, List.mem_cons_self it rest, hL.1⟩
          · exact Or.inr ⟨j, List.mem_cons_of_mem _ hj, hjs⟩

theorem processItems_seen (minStars : Int) (limit : Nat) :
    ∀ (items : List RepoItem) (ps ps2 : ProcState),
      processItems minStars limit items ps = Sum.inl ps2 →
      List.Sublist ps.seen ps2.seen
  | [], ps, ps2, h => by
    simp only [processItems, Sum.inl.injEq] at h
    rw [← h]
  | it :: rest, ps, ps2, h => by
    rw [processItems] at h
    by_cases h1 : it.stars < minStars
    · rw [if_pos h1] at h; simp at h
    · rw [if_neg h1] at h
      by_cases h2 : ps.seen.contains it.fullName
      · rw [if_pos h2] at h
        exact processItems_seen minStars limit rest ps ps2 h
      · rw [if_neg h2] at h
        simp only at h
        by_cases h3 : 0 < limit ∧ limit ≤ (ps.acc ++ [it]).length
        · rw [if_pos h3] at h; simp at h
        · rw [if_neg h3] at h
          have htail := processItems_seen minStars limit rest
            ⟨it.stars, ps.seen ++ [it.fullName], ps.acc ++ [it]⟩ ps2 h
          exact List.Sublist.trans (List.sublist_append_left _ _) htail

/-- Invariant of the per-page item loop state: the seen index is exactly
the list of accepted full names, the accepted full names are distinct, the
accepted star counts are non-increasing, and latestStarCount is a lower
bound of every accepted star count. -/
def accInv (ps : ProcState) : Prop :=
  ps.seen = ps.acc.map (fun it => it.fullName) ∧
  (ps.acc.map (fun it => it.fullName)).Nodup ∧
  (ps.acc.map (fun it => it.stars)).Pairwise (fun a b => b ≤ a) ∧
  ∀ a ∈ ps.acc, ps.latest ≤ a.stars

theorem processItems_sorted (minStars : Int) (limit : Nat) :
    ∀ (items : List RepoItem) (ps : ProcState),
      items.Pairwise (fun a b => b.stars ≤ a.stars) →
      (∀ it ∈ items, ps.acc ≠ [] → it.stars ≤ ps.latest) →
      accInv ps →
      (∀ r, processItems minStars limit items ps = Sum.inr r →
        (r.map (fun it => it.fullName)).Nodup ∧
        (r.map (fun it => it.stars)).Pairwise (fun a b => b ≤ a)) ∧
      (∀ ps2, processItems minStars limit items ps = Sum.inl ps2 → accInv ps2)
  | [], ps, _, _, hinv => by
    refine ⟨fun r h => ?_, fun ps2 h => ?_⟩
    · simp [processItems] at h
    · simp only [processItems, Sum.inl.injEq] at h
      rw [← h]; exact hinv
  | it :: rest, ps, hpair, hb, hinv => by
    have hpairTail : rest.Pairwise (fun a b => b.stars ≤ a.stars) :=
      (List.pairwise_cons.mp hpair).2
    have hpairHead : ∀ j ∈ rest, j.stars ≤ it.stars :=
      (List.pairwise_cons.mp hpair).1
    by_cases h1 : it.stars < minStars
    · refine ⟨fun r h => ?_, fun ps2 h => ?_⟩
      · rw [processItems, if_pos h1] at h
        have : ps.acc = r := by simpa using h
        rw [← this]
        exact ⟨hinv.2.1, hinv.2.2.1⟩
      · rw [processItems, if_pos h1] at h; simp at h
    · by_cases h2 : ps.seen.contains it.fullName
      · have hrec := processItems_sorted minStars limit rest ps hpairTail
          (fun j hj => hb j (List.mem_cons_of_mem _ hj)) hinv
        refine ⟨fun r h => ?_, fun ps2 h => ?_⟩
        · rw [processItems, if_neg h1, if_pos h2] at h
          exact hrec.1 r h
        · rw [processItems, if_neg h1, if_pos h2] at h
          exact hrec.2 ps2 h
      · have hfresh : it.fullName ∉ ps.acc.map (fun x => x.fullName) := by
          intro hm
          apply h2
          rw [hinv.1]
          simpa using hm
        have hge : ∀ a ∈ ps.acc, it.stars ≤ a.stars := fun a ha =>
          le_trans (hb it (List.mem_cons_self it rest) (List.ne_nil_of_mem ha))
            (hinv.2.2.2 a ha)
        have inv2 : accInv ⟨it.stars, ps.seen ++ [it.fullName], ps.acc ++ [it]⟩ := by
          refine ⟨?_, ?_, ?_, ?_⟩
          · show ps.seen ++ [it.fullName] = (ps.acc ++ [it]).map (fun x => x.fullName)
            rw [List.map_append, hinv.1]
            simp
          · show ((ps.acc ++ [it]).map (fun x => x.fullName)).Nodup
            rw [List.map_append]
            simp only [List.map_cons, List.map_nil]
            simp [List.nodup_append, hfresh, hinv.2.1]
          · show ((ps.acc ++ [it]).map (fun x => x.stars)).Pairwise (fun a b => b ≤ a)
            rw [List.map_append]
            rw [List.pairwise_append]
            refine ⟨hinv.2.2.1, List.pairwise_singleton _ _, ?_⟩
            intro a ha b hbmem
            simp only [List.map_cons, List.map_nil, List.mem_singleton] at hbmem
            subst hbmem
            obtain ⟨a0, ha0, rfl⟩ := List.mem_map.mp ha
            exact hge a0 ha0
          · intro a ha
            rcases List.mem_append.mp ha with ha | ha
            · exact hge a ha
            · simp only [List.mem_singleton] at ha
              subst ha
              exact le_refl _
        by_cases h3 : 0 < limit ∧ limit ≤ (ps.acc ++ [it]).length
        · refine ⟨fun r h => ?_, fun ps2 h => ?_⟩
          · rw [processItems, if_neg h1, if_neg h2] at h
            simp only at h
            rw [if_pos h3] at h
            have : ps.acc ++ [it] = r := by simpa using h
            rw [← this]
            exact ⟨inv2.2.1, inv2.2.2.1⟩
          · rw [processItems, if_neg h1, if_neg h2] at h
            simp only at h
            rw [if_pos h3] at h
            simp at h
        · have hb2 : ∀ j ∈ rest,
              (⟨it.stars, ps.seen ++ [it.fullName], ps.acc ++ [it]⟩ : ProcState).acc ≠ [] →
              j.stars ≤ (⟨it.stars, ps.seen ++ [it.fullName], ps.acc ++ [it]⟩ : ProcState).latest :=
            fun j hj _ => hpairHead j hj
          have hrec := processItems_sorted minStars limit rest
            ⟨it.stars, ps.seen ++ [it.fullName], ps.acc ++ [it]⟩
            hpairTail hb2 inv2
          refine ⟨fun r h => ?_, fun ps2 h => ?_⟩
          · rw [processItems, if_neg h1, if_neg h2] at h
            simp only at h
            rw [if_neg h3] at h
            exact hrec.1 r h
          · rw [processItems, if_neg h1, if_neg h2] at h
            simp only at h
            rw [if_neg h3] at h
            exact hrec.2 ps2 h

/-- Largest star count in the dataset (at least 0). -/
def maxStar (D : List RepoItem) : Int :=
  D.foldr (fun it m => max it.stars m) 0

theorem maxStar_nonneg (D : List RepoItem) : 0 ≤ maxStar D := by
  induction D with
  | nil => simp [maxStar]
  | cons a l ih =>
    have : maxStar (a :: l) = max a.stars (maxStar l) := rfl
    rw [this]
    exact le_trans ih (le_max_right _ _)

theorem le_maxStar (D : List RepoItem) : ∀ it ∈ D, it.stars ≤ maxStar D := by
  induction D with
  | nil => intro it h; simp at h
  | cons a l ih =>
    intro it h
    have hm : maxStar (a :: l) = max a.stars (maxStar l) := rfl
    rcases List.mem_cons.mp h with rfl | h
    · rw [hm]; exact le_max_left _ _
    · rw [hm]; exact le_trans (ih it h) (le_max_right _ _)

theorem mem_searchWindow_mem (D : List RepoItem) (useB : Bool) (b : Int)
    (r : RepoItem) (h : r ∈ searchWindow D useB b) : r ∈ D := by
  have h2 := List.mem_of_mem_take h
  by_cases hu : useB = true
  · rw [hu] at h2
    simp only [if_pos rfl] at h2
    exact (List.mem_filter.mp h2).1
  · have hu2 : useB = false := by
      cases useB
      · rfl
      · exact absurd rfl hu
    rw [hu2] at h2
    simpa using h2

theorem mem_searchWindow_le (D : List RepoItem) (b : Int) (r : RepoItem)
    (h : r ∈ searchWindow D true b) : r.stars ≤ b := by
  have h2 := List.mem_of_mem_take h
  simp only [if_pos rfl] at h2
  have := (List.mem_filter.mp h2).2
  simpa using this

theorem searchWindow_length_le (D : List RepoItem) (useB : Bool) (b : Int) :
    (searchWindow D useB b).length ≤ 1000 :=
  List.length_take_le 1000 _

/-- Invariant of the GetterLoop state needed for termination: without the
star bound the bound still holds its minus-one sentinel; with the star
bound in use the bound is non-negative and latestStarCount is at most the
bound; latestStarCount always lies between 0 and the largest star count of
the dataset. -/
def InvT (D : List RepoItem) (s : SearchState) : Prop :=
  (s.useStarBound = false → s.starLowerBound = -1) ∧
  (s.useStarBound = true → 0 ≤ s.starLowerBound ∧
    s.latestStarCount ≤ s.starLowerBound) ∧
  0 ≤ s.latestStarCount ∧ s.latestStarCount ≤ maxStar D

/-- Fuel contributed by the star bound: the bound itself once the bound is
in use, and one more than the largest possible bound before that. -/
def boundFuel (D : List RepoItem) (s : SearchState) : Nat :=
  if s.useStarBound then s.starLowerBound.toNat + 1 else (maxStar D).toNat + 2

/-- Termination measure of the GetterLoop: the star-bound fuel weighted
past the at most eleven page positions a single windowed run can visit. -/
def searchMeasure (D : List RepoItem) (s : SearchState) : Nat :=
  boundFuel D s * 12 + (11 - min (pageIdx s.page) 11)

theorem step_terminates_or_decreases (D : List RepoItem) (minStars : Int)
    (limit : Nat) (hpos : ∀ it ∈ D, 0 ≤ it.stars) (s : SearchState)
    (hInv : InvT D s) :
    (∃ r, ListAllReposByLanguageStep D minStars limit s = Sum.inr r) ∨
    (∃ s2, ListAllReposByLanguageStep D minStars limit s = Sum.inl s2 ∧
      InvT D s2 ∧ searchMeasure D s2 < searchMeasure D s) := by
  set w := searchWindow D s.useStarBound s.starLowerBound with hw
  set items := (w.drop ((pageIdx s.page - 1) * 100)).take 100 with hitems
  set nxt : Nat := if pageIdx s.page * 100 < w.length then pageIdx s.page + 1
    else 0 with hnxt
  have hstep : ListAllReposByLanguageStep D minStars limit s =
      (match processItems minStars limit items
          ⟨s.latestStarCount, s.seen, s.acc⟩ with
       | Sum.inr result => Sum.inr result
       | Sum.inl ps =>
         if nxt = 0 then
           if s.starLowerBound = 0 then Sum.inr ps.acc
           else Sum.inl ⟨1, true,
             (if s.starLowerBound = ps.latest then ps.latest - 1 else ps.latest),
             (if s.starLowerBound = ps.latest then ps.latest - 1 else ps.latest),
             ps.seen, ps.acc⟩
         else Sum.inl ⟨nxt, s.useStarBound, s.starLowerBound, ps.latest,
           ps.seen, ps.acc⟩) := rfl
  rcases hpi : processItems minStars limit items
      ⟨s.latestStarCount, s.seen, s.acc⟩ with ps | r
  · -- processItems continued with state ps
    have hmemw : ∀ it ∈ items, it ∈ w := fun it h =>
      List.mem_of_mem_drop (List.mem_of_mem_take h)
    have hmemD : ∀ it ∈ items, it ∈ D := fun it h =>
      mem_searchWindow_mem D s.useStarBound s.starLowerBound it (hmemw it h)
    have hlat := processItems_latest minStars limit items
      ⟨s.latestStarCount, s.seen, s.acc⟩ ps hpi
    have hl0 : 0 ≤ ps.latest := by
      rcases hlat with ⟨h1, _, _⟩ | ⟨it, hit, heq⟩
      · rw [h1]; exact hInv.2.2.1
      · rw [heq]; exact hpos it (hmemD it hit)
    have hlmax : ps.latest ≤ maxStar D := by
      rcases hlat with ⟨h1, _, _⟩ | ⟨it, hit, heq⟩
      · rw [h1]; exact hInv.2.2.2
      · rw [heq]; exact le_maxStar D it (hmemD it hit)
    have hlbound : s.useStarBound = true → ps.latest ≤ s.starLowerBound := by
      intro hu
      rcases hlat with ⟨h1, _, _⟩ | ⟨it, hit, heq⟩
      · rw [h1]; exact (hInv.2.1 hu).2
      · rw [heq]
        refine mem_searchWindow_le D s.starLowerBound it ?_
        have hmem := hmemw it hit
        rw [hw, hu] at hmem
        exact hmem
    by_cases hz : nxt = 0
    · by_cases hb0 : s.starLowerBound = 0
      · left
        exact ⟨ps.acc, by rw [hstep]; simp [hpi, hz, hb0]⟩
      · right
        set L2 : Int := if s.starLowerBound = ps.latest then ps.latest - 1
          else ps.latest with hL2
        have hL2le : L2 ≤ ps.latest := by
          rw [hL2]; split
          · omega
          · exact le_refl _
        have hL2nn : 0 ≤ L2 := by
          rw [hL2]; split
          case isTrue hdec =>
            rcases hu : s.useStarBound with _ | _
            · have := hInv.1 hu
              omega
            · have := (hInv.2.1 hu).1
              omega
          case isFalse hdec => exact hl0
        refine ⟨⟨1, true, L2, L2, ps.seen, ps.acc⟩, ?_, ?_, ?_⟩
        · rw [hstep]; simp [hpi, hz, hb0, hL2]
        · refine ⟨?_, ?_, ?_, ?_⟩
          · intro h; exact nomatch h
          · intro _; exact ⟨hL2nn, le_refl _⟩
          · exact hL2nn
          · exact le_trans hL2le hlmax
        · have hfuel : L2.toNat + 1 < boundFuel D s := by
            rcases hu : s.useStarBound with _ | _
            · have hb1 := hInv.1 hu
              rw [boundFuel, hu]
              simp only [Bool.false_eq_true, if_false]
              have : L2.toNat ≤ (maxStar D).toNat := by
                have := le_trans hL2le hlmax
                omega
              omega
            · have hb1 := (hInv.2.1 hu).1
              rw [boundFuel, hu]
              simp only [if_true]
              have hlt : L2 < s.starLowerBound := by
                rw [hL2]; split
                case isTrue hdec => omega
                case isFalse hdec =>
                  have := hlbound hu
                  omega
              omega
          rw [searchMeasure, searchMeasure]
          have hfl : boundFuel D ⟨1, true, L2, L2, ps.seen, ps.acc⟩ =
              L2.toNat + 1 := rfl
          rw [hfl]
          have hpg : pageIdx (1 : Nat) = 1 := rfl
          have hmin : min (pageIdx s.page) 11 ≤ 11 := min_le_right _ _
          omega
    · right
      have hcond : pageIdx s.page * 100 < w.length ∧
          nxt = pageIdx s.page + 1 := by
        by_cases hc : pageIdx s.page * 100 < w.length
        · exact ⟨hc, by rw [hnxt, if_pos hc]⟩
        · exact absurd (by rw [hnxt, if_neg hc]) hz
      have hidx9 : pageIdx s.page ≤ 9 := by
        have h1000 : w.length ≤ 1000 := by
          rw [hw]; exact searchWindow_length_le D _ _
        have := hcond.1
        omega
      refine ⟨⟨nxt, s.useStarBound, s.starLowerBound, ps.latest,
        ps.seen, ps.acc⟩, ?_, ?_, ?_⟩
      · rw [hstep]; simp [hpi, hz]
      · exact ⟨hInv.1, fun hu => ⟨(hInv.2.1 hu).1, hlbound hu⟩, hl0, hlmax⟩
      · have hfl : boundFuel D ⟨nxt, s.useStarBound, s.starLowerBound,
            ps.latest, ps.seen, ps.acc⟩ = boundFuel D s := rfl
        rw [searchMeasure, searchMeasure, hfl]
        have hpg : pageIdx nxt = pageIdx s.page + 1 := by
          rw [hcond.2, pageIdx]
          have : 1 ≤ pageIdx s.page := le_max_right _ _
          omega
        rw [hpg]
        have h1 : 1 ≤ pageIdx s.page := le_max_right _ _
        omega
  · left
    exact ⟨r, by rw [hstep]; simp [hpi]⟩

theorem searchRun_term (D : List RepoItem) (minStars : Int) (limit : Nat)
    (hpos : ∀ it ∈ D, 0 ≤ it.stars) :
    ∀ (k : Nat) (s : SearchState), searchMeasure D s ≤ k → InvT D s →
      ∃ (n : Nat) (r : List RepoItem),
        ListAllReposByLanguageRun D minStars limit n s = some r := by
  intro k
  induction k with
  | zero =>
    intro s hm hi
    rcases step_terminates_or_decreases D minStars limit hpos s hi with
      ⟨r, hr⟩ | ⟨s2, _, _, hlt⟩
    · refine ⟨1, r, ?_⟩
      show (match ListAllReposByLanguageStep D minStars limit s with
        | Sum.inr r => some r
        | Sum.inl s2 => ListAllReposByLanguageRun D minStars limit 0 s2) = some r
      rw [hr]
    · omega
  | succ k ih =>
    intro s hm hi
    rcases step_terminates_or_decreases D minStars limit hpos s hi with
      ⟨r, hr⟩ | ⟨s2, hs2, hi2, hlt⟩
    · refine ⟨1, r, ?_⟩
      show (match ListAllReposByLanguageStep D minStars limit s with
        | Sum.inr r => some r
        | Sum.inl s2 => ListAllReposByLanguageRun D minStars limit 0 s2) = some r
      rw [hr]
    · obtain ⟨n, r, hn⟩ := ih s2 (by omega) hi2
      refine ⟨n + 1, r, ?_⟩
      show (match ListAllReposByLanguageStep D minStars limit s with
        | Sum.inr r => some r
        | Sum.inl s2 => ListAllReposByLanguageRun D minStars limit n s2) = some r
      rw [hs2]
      exact hn

/-- C2 (amended): on every finite dataset of non-negatively starred items
(ties automatically bounded), served by the canonical windowed remote,
the bound-decrement loop of ListAllReposByLanguage terminates within some
finite fuel: the star bound strictly decreases at every restart once in
use and never drops below zero, so restarts are finite and each windowed
run spans at most eleven page fetches. The loop ends when starLowerBound
reaches zero or through the MinStars and Limit early exits; an empty
restart page alone does not end it, and the legacy ListReposOnlyBylanguage
variant, which lacks the zero-bound stop, need not terminate at all. -/
theorem ListAllReposByLanguage_terminates (D : List RepoItem)
    (minStars : Int) (limit : Nat) (hpos : ∀ it ∈ D, 0 ≤ it.stars) :
    ∃ (n : Nat) (r : List RepoItem),
      ListAllReposByLanguageRun D minStars limit n initSearchState = some r := by
  refine searchRun_term D minStars limit hpos
    (searchMeasure D initSearchState) initSearchState (le_refl _) ?_
  refine ⟨fun _ => rfl, ?_, le_refl _, maxStar_nonneg D⟩
  intro h
  exact nomatch h

/-- C2 witness: on the single-repository dataset the loop terminates (in
four iterations, as the counterexample trace shows). -/
theorem ListAllReposByLanguage_terminates_witness :
    ∃ (n : Nat) (r : List RepoItem),
      ListAllReposByLanguageRun dOne 0 0 n initSearchState = some r :=
  ListAllReposByLanguage_terminates dOne 0 0 (by decide)

theorem searchWindow_pairwise (D : List RepoItem) (useB : Bool) (b : Int)
    (hD : D.Pairwise (fun a b => b.stars ≤ a.stars)) :
    (searchWindow D useB b).Pairwise (fun a b => b.stars ≤ a.stars) := by
  rw [searchWindow]
  cases useB
  · simp only [Bool.false_eq_true, if_false]
    exact hD.sublist (List.take_sublist _ _)
  · simp only [if_true]
    exact (hD.sublist (List.filter_sublist _)).sublist (List.take_sublist _ _)

/-- Invariant of the GetterLoop state carrying the dedup and ordering
guarantees: the accumulator satisfies the item-loop invariant, and every
item the current window still holds at or after the current page position
has at most latestStarCount stars (once anything was accepted). -/
def searchInv (D : List RepoItem) (s : SearchState) : Prop :=
  accInv ⟨s.latestStarCount, s.seen, s.acc⟩ ∧
  ∀ r ∈ (searchWindow D s.useStarBound s.starLowerBound).drop
      ((pageIdx s.page - 1) * 100), s.acc ≠ [] → r.stars ≤ s.latestStarCount

theorem searchStep_inv (D : List RepoItem) (minStars : Int) (limit : Nat)
    (hD : D.Pairwise (fun a b => b.stars ≤ a.stars)) (s : SearchState)
    (hs : searchInv D s) :
    (∀ r, ListAllReposByLanguageStep D minStars limit s = Sum.inr r →
      (r.map (fun it => it.fullName)).Nodup ∧
      (r.map (fun it => it.stars)).Pairwise (fun a b => b ≤ a)) ∧
    (∀ s2, ListAllReposByLanguageStep D minStars limit s = Sum.inl s2 →
      searchInv D s2) := by
  set w := searchWindow D s.useStarBound s.starLowerBound with hw
  set A := (pageIdx s.page - 1) * 100 with hA
  set items := (w.drop A).take 100 with hitems
  set nxt : Nat := if pageIdx s.page * 100 < w.length then pageIdx s.page + 1
    else 0 with hnxt
  have hstep : ListAllReposByLanguageStep D minStars limit s =
      (match processItems minStars limit items
          ⟨s.latestStarCount, s.seen, s.acc⟩ with
       | Sum.inr result => Sum.inr result
       | Sum.inl ps =>
         if nxt = 0 then
           if s.starLowerBound = 0 then Sum.inr ps.acc
           else Sum.inl ⟨1, true,
             (if s.starLowerBound = ps.latest then ps.latest - 1 else ps.latest),
             (if s.starLowerBound = ps.latest then ps.latest - 1 else ps.latest),
             ps.seen, ps.acc⟩
         else Sum.inl ⟨nxt, s.useStarBound, s.starLowerBound, ps.latest,
           ps.seen, ps.acc⟩) := rfl
  have hwpair : w.Pairwise (fun a b => b.stars ≤ a.stars) :=
    searchWindow_pairwise D s.useStarBound s.starLowerBound hD
  have hTpair : (w.drop A).Pairwise (fun a b => b.stars ≤ a.stars) :=
    hwpair.sublist (List.drop_sublist _ _)
  have hitemspair : items.Pairwise (fun a b => b.stars ≤ a.stars) :=
    hTpair.sublist (List.take_sublist _ _)
  have hb : ∀ it ∈ items,
      (⟨s.latestStarCount, s.seen, s.acc⟩ : ProcState).acc ≠ [] →
      it.stars ≤ (⟨s.latestStarCount, s.seen, s.acc⟩ : ProcState).latest :=
    fun it hit hacc => hs.2 it (List.mem_of_mem_take hit) hacc
  have hPI := processItems_sorted minStars limit items
    ⟨s.latestStarCount, s.seen, s.acc⟩ hitemspair hb hs.1
  rcases hpi : processItems minStars limit items
      ⟨s.latestStarCount, s.seen, s.acc⟩ with ps | r0
  · have hinv2 : accInv ps := hPI.2 ps hpi
    have hlat := processItems_latest minStars limit items
      ⟨s.latestStarCount, s.seen, s.acc⟩ ps hpi
    by_cases hz : nxt = 0
    · by_cases hb0 : s.starLowerBound = 0
      · constructor
        · intro r hr
          rw [hstep] at hr
          simp only [hpi, hz, hb0, if_true, if_false, Sum.inr.injEq] at hr
          rw [← hr]
          exact ⟨hinv2.2.1, hinv2.2.2.1⟩
        · intro s2 hs2
          rw [hstep] at hs2
          simp [hpi, hz, hb0] at hs2
      · constructor
        · intro r hr
          rw [hstep] at hr
          simp [hpi, hz, hb0] at hr
        · intro s2 hs2
          rw [hstep] at hs2
          simp only [hpi, hz, hb0, if_true, if_false, eq_self_iff_true,
            Sum.inl.injEq] at hs2
          rw [← hs2]
          set L2 : Int := if s.starLowerBound = ps.latest then ps.latest - 1
            else ps.latest with hL2
          have hL2le : L2 ≤ ps.latest := by
            rw [hL2]; split
            · omega
            · exact le_refl _
          constructor
          · refine ⟨hinv2.1, hinv2.2.1, hinv2.2.2.1, ?_⟩
            intro a ha
            exact le_trans hL2le (hinv2.2.2.2 a ha)
          · intro r2 hr2 hacc
            show r2.stars ≤ L2
            have hr2w : r2 ∈ searchWindow D true L2 := by
              have : (pageIdx 1 - 1) * 100 = 0 := rfl
              rw [this] at hr2
              simpa using hr2
            exact mem_searchWindow_le D L2 r2 hr2w
    · constructor
      · intro r hr
        rw [hstep] at hr
        simp [hpi, hz] at hr
      · intro s2 hs2
        rw [hstep] at hs2
        simp only [hpi, hz, if_true, if_false, Sum.inl.injEq] at hs2
        rw [← hs2]
        have hcond : pageIdx s.page * 100 < w.length ∧
            nxt = pageIdx s.page + 1 := by
          by_cases hc : pageIdx s.page * 100 < w.length
          · exact ⟨hc, by rw [hnxt, if_pos hc]⟩
          · exact absurd (by rw [hnxt, if_neg hc]) hz
        constructor
        · exact hinv2
        · intro r2 hr2 hacc
          show r2.stars ≤ ps.latest
          have hpg : pageIdx nxt = pageIdx s.page + 1 := by
            rw [hcond.2, pageIdx]
            have : 1 ≤ pageIdx s.page := le_max_right _ _
            omega
          have hdropeq : (pageIdx nxt - 1) * 100 = A + 100 := by
            rw [hpg, hA, pageIdx]
            have : 1 ≤ max s.page 1 := le_max_right _ _
            omega
          rw [hdropeq] at hr2
          have hr2T : r2 ∈ (w.drop A).drop 100 := by
            rw [List.drop_drop]
            exact hr2
          rcases hlat with ⟨hL, hSeen, hAcc⟩ | ⟨it, hit, heq⟩
          · rw [hL]
            refine hs.2 r2 (List.mem_of_mem_drop hr2T) ?_
            have hAcc2 : ps.acc = s.acc := hAcc
            have hacc2 : ps.acc ≠ [] := hacc
            rw [hAcc2] at hacc2
            exact hacc2
          · rw [heq]
            have hsplit := List.take_append_drop 100 (w.drop A)
            have hpairsplit := hTpair
            rw [← hsplit] at hpairsplit
            exact (List.pairwise_append.mp hpairsplit).2.2 it hit r2 hr2T
  · constructor
    · intro r hr
      rw [hstep] at hr
      simp only [hpi, Sum.inr.injEq] at hr
      rw [← hr]
      exact hPI.1 r0 hpi
    · intro s2 hs2
      rw [hstep] at hs2
      simp [hpi] at hs2

theorem searchStep_seen (D : List RepoItem) (minStars : Int) (limit : Nat)
    (s s2 : SearchState)
    (h : ListAllReposByLanguageStep D minStars limit s = Sum.inl s2) :
    List.Sublist s.seen s2.seen := by
  set w := searchWindow D s.useStarBound s.starLowerBound with hw
  set A := (pageIdx s.page - 1) * 100 with hA
  set items := (w.drop A).take 100 with hitems
  set nxt : Nat := if pageIdx s.page * 100 < w.length then pageIdx s.page + 1
    else 0 with hnxt
  have hstep : ListAllReposByLanguageStep D minStars limit s =
      (match processItems minStars limit items
          ⟨s.latestStarCount, s.seen, s.acc⟩ with
       | Sum.inr result => Sum.inr result
       | Sum.inl ps =>
         if nxt = 0 then
           if s.starLowerBound = 0 then Sum.inr ps.acc
           else Sum.inl ⟨1, true,
             (if s.starLowerBound = ps.latest then ps.latest - 1 else ps.latest),
             (if s.starLowerBound = ps.latest then ps.latest - 1 else ps.latest),
             ps.seen, ps.acc⟩
         else Sum.inl ⟨nxt, s.useStarBound, s.starLowerBound, ps.latest,
           ps.seen, ps.acc⟩) := rfl
  rw [hstep] at h
  rcases hpi : processItems minStars limit items
      ⟨s.latestStarCount, s.seen, s.acc⟩ with ps | r0
  · have hseen : List.Sublist s.seen ps.seen :=
      processItems_seen minStars limit items ⟨s.latestStarCount, s.seen, s.acc⟩
        ps hpi
    rw [hpi] at h
    simp only at h
    by_cases hz : nxt = 0
    · rw [if_pos hz] at h
      by_cases hb0 : s.starLowerBound = 0
      · rw [if_pos hb0] at h; simp at h
      · rw [if_neg hb0] at h
        simp only [Sum.inl.injEq] at h
        rw [← h]
        exact hseen
    · rw [if_neg hz] at h
      simp only [Sum.inl.injEq] at h
      rw [← h]
      exact hseen
  · rw [hpi] at h
    simp at h

theorem searchRun_inv (D : List RepoItem) (minStars : Int) (limit : Nat)
    (hD : D.Pairwise (fun a b => b.stars ≤ a.stars)) :
    ∀ (n : Nat) (s : SearchState) (r : List RepoItem), searchInv D s →
      ListAllReposByLanguageRun D minStars limit n s = some r →
      (r.map (fun it => it.fullName)).Nodup ∧
      (r.map (fun it => it.stars)).Pairwise (fun a b => b ≤ a) := by
  intro n
  induction n with
  | zero => intro s r _ h; simp [ListAllReposByLanguageRun] at h
  | succ n ih =>
    intro s r hs h
    have hform : ListAllReposByLanguageRun D minStars limit (n + 1) s =
        (match ListAllReposByLanguageStep D minStars limit s with
         | Sum.inr r => some r
         | Sum.inl s2 => ListAllReposByLanguageRun D minStars limit n s2) := rfl
    rw [hform] at h
    rcases hst : ListAllReposByLanguageStep D minStars limit s with s2 | r0
    · rw [hst] at h
      simp only at h
      exact ih s2 r ((searchStep_inv D minStars limit hD s hs).2 s2 hst) h
    · rw [hst] at h
      simp only [Option.some.injEq] at h
      rw [← h]
      exact (searchStep_inv D minStars limit hD s hs).1 r0 hst

/-- C3: run against the canonical remote over any dataset sorted by
non-increasing stars, whenever the exhaustive search of
ListAllReposByLanguage completes, its result contains each full name at
most once and its star counts are non-increasing across the whole result;
moreover the seen index only grows across every live loop step (third
conjunct, for arbitrary states). -/
theorem ListAllReposByLanguage_dedup_sorted (D : List RepoItem)
    (minStars : Int) (limit : Nat) (n : Nat) (r : List RepoItem)
    (hD : D.Pairwise (fun a b => b.stars ≤ a.stars))
    (hrun : ListAllReposByLanguageRun D minStars limit n initSearchState =
      some r) :
    (r.map (fun it => it.fullName)).Nodup ∧
    (r.map (fun it => it.stars)).Pairwise (fun a b => b ≤ a) ∧
    ∀ (s s2 : SearchState),
      ListAllReposByLanguageStep D minStars limit s = Sum.inl s2 →
      List.Sublist s.seen s2.seen := by
  have hinit : searchInv D initSearchState := by
    refine ⟨⟨rfl, List.nodup_nil, List.Pairwise.nil, ?_⟩, ?_⟩
    · intro a ha; simp [initSearchState] at ha
    · intro r2 hr2 hacc
      exact absurd rfl hacc
  obtain ⟨h1, h2⟩ := searchRun_inv D minStars limit hD n initSearchState r
    hinit hrun
  exact ⟨h1, h2, fun s s2 h => searchStep_seen D minStars limit s s2 h⟩

/-- C3 witness: on the single-repository dataset the completed search
returns distinct full names. -/
theorem ListAllReposByLanguage_dedup_sorted_witness :
    (([⟨("a/b"), 2⟩] : List RepoItem).map (fun it => it.fullName)).Nodup :=
  (ListAllReposByLanguage_dedup_sorted dOne 0 0 4 [⟨("a/b"), 2⟩]
    (by decide) (by decide)).1
